import Mathlib

/-!
Verification of the pyparsers combinator engine (src/src/pyparsers.py).

The engine is embedded shallowly:

* Python parse values are dynamically typed; they are modelled by the
  universal type `Val` (strings, the None sentinel, and lists/tuples).
* `ParseResult` mirrors the Success/Failure class pair (lines 127-204);
  positions are `Int` because the left-recursion marker is constructed as
  `Failure(-1, "Prevent infinite recursion")` (line 468).
* A rule is a function from (tokens, position) to an outcome.  Python rules
  may also read and mutate global memo tables, and an uncaught exception (or
  a non-terminating loop) aborts the computation; both are made explicit:
  a rule takes and returns a state `σ` and returns `Option` (`none` models
  an exception escaping, or running out of fuel in a loop).  Execution is
  single threaded, so threading the state through calls in evaluation order
  is exact.
* Python mutable dictionaries are modelled by association lists updated
  functionally.
-/

namespace PyParsers

/-- Universal type of parse values: a token string, Python's None, or a
list/tuple of values (tuples and lists are not distinguished). -/
inductive Val where
  | str (s : String)
  | nil
  | list (xs : List Val)

/-- ParseResult (pyparsers.py lines 127-204): `Success(pos, value)` or
`Failure(pos, reason)`. -/
inductive ParseResult where
  | Success (pos : Int) (val : Val)
  | Failure (pos : Int) (reason : String)

/-- ParseResult.position (line 138). -/
def ParseResult.position : ParseResult → Int
  | .Success pos _ => pos
  | .Failure pos _ => pos

/-- ParseResult.success (lines 169, 194). -/
def ParseResult.isSuccess : ParseResult → Bool
  | .Success _ _ => true
  | .Failure _ _ => false

/-- ParseResult.value (lines 172, 197): a Failure's value is None. -/
def ParseResult.value : ParseResult → Val
  | .Success _ v => v
  | .Failure _ _ => Val.nil

/-- ParseResult.transform (lines 178-179, 200-201): maps the action over a
Success's value, leaves a Failure unchanged. -/
def ParseResult.transform (action : Val → Val) : ParseResult → ParseResult
  | .Success pos v => .Success pos (action v)
  | .Failure pos r => .Failure pos r

/-- Python list indexing `tokens[pos]` (TokenStream delegates to a list):
valid for -len ≤ pos < len with negative positions counting from the end;
`none` models the IndexError raised outside that range. -/
def tokenAt (tokens : List String) (pos : Int) : Option String :=
  if 0 ≤ pos then tokens.get? pos.toNat
  else if 0 ≤ pos + (tokens.length : Int) then tokens.get? (pos + (tokens.length : Int)).toNat
  else Option.none

/-- A rule function `(tokens, position) -> ParseResult`, with the global
mutable state `σ` it may touch made explicit and `none` for an uncaught
exception or divergence. -/
def Rule (σ : Type) : Type :=
  List String → Int → σ → Option (ParseResult × σ)

/-- The Parser wrapper (lines 217-266): a rule function plus the attached
action. -/
structure Parser (σ : Type) where
  fn : Rule σ
  act : Val → Val

/-- The default parse action (lines 210-212). -/
def identity : Val → Val := fun x => x

/-- Parser.__call__ (lines 227-231): `position >= len(tokens)` yields the
end-of-stream Failure before the wrapped rule runs; otherwise the rule's
outcome is transformed by the parser's action. -/
def Parser.call {σ : Type} (p : Parser σ) (tokens : List String) (position : Int) (s : σ) :
    Option (ParseResult × σ) :=
  if (tokens.length : Int) ≤ position then
    some (ParseResult.Failure position "Reached end of token stream", s)
  else
    match p.fn tokens position s with
    | Option.none => Option.none
    | some (r, s') => some (r.transform p.act, s')

/-- Body of `text` (lines 305-309). -/
def textFn (t : String) : List String → Int → Option ParseResult :=
  fun tokens position =>
    (tokenAt tokens position).map (fun tok =>
      if tok = t then ParseResult.Success (position + 1) (Val.str t)
      else ParseResult.Failure position ("Expected " ++ t ++ " instead of " ++ tok))

/-- text (lines 299-310): recognizes exactly the given token. -/
def text {σ : Type} (t : String) (action : Val → Val) : Parser σ :=
  { fn := fun tokens position s => (textFn t tokens position).map (fun r => (r, s)),
    act := action }

/-- Body of `one_of` (lines 318-322). -/
def one_ofFn (enumerated : List String) : List String → Int → Option ParseResult :=
  fun tokens position =>
    (tokenAt tokens position).map (fun tok =>
      if enumerated.contains tok then ParseResult.Success (position + 1) (Val.str tok)
      else ParseResult.Failure position
        ("Expecting one of the following tokens " ++ String.intercalate ", " enumerated))

/-- one_of (lines 312-323): recognizes any of the enumerated tokens. -/
def one_of {σ : Type} (enumerated : List String) (action : Val → Val) : Parser σ :=
  { fn := fun tokens position s => (one_ofFn enumerated tokens position).map (fun r => (r, s)),
    act := action }

/-- Body of `regex` (lines 331-333): the anchored match
`re.match("^"+pattern+"$", tok)` is an external regex engine, abstracted as
the predicate `matches`; `pattern` is kept for the failure message. -/
def regexFn (pattern : String) (accepts : String → Bool) : List String → Int → Option ParseResult :=
  fun tokens position =>
    (tokenAt tokens position).map (fun tok =>
      if accepts tok then ParseResult.Success (1 + position) (Val.str tok)
      else ParseResult.Failure position ("Expecting a token matching " ++ pattern))

/-- regex (lines 325-334). -/
def regex {σ : Type} (pattern : String) (accepts : String → Bool) (action : Val → Val) : Parser σ :=
  { fn := fun tokens position s => (regexFn pattern accepts tokens position).map (fun r => (r, s)),
    act := action }

/-- The VariadicActionParser action wrapper (line 285), `lambda x: action(*x)`:
unpacks the list of collected values into the action's arguments.  The
sequence rule below only ever produces list values. -/
def splat (action : List Val → Val) : Val → Val
  | Val.list xs => action xs
  | v => v

/-- The loop of sequence's do_parse (lines 346-358): runs the sub-parsers in
order, threading the position, returning the first Failure verbatim and
collecting the successful values. -/
def seqGo {σ : Type} (tokens : List String) :
    List (Parser σ) → Int → List Val → σ → Option (ParseResult × σ)
  | [], position, output, s => some (ParseResult.Success position (Val.list output), s)
  | p :: ps, position, output, s =>
    match p.call tokens position s with
    | Option.none => Option.none
    | some (ParseResult.Success q v, s') => seqGo tokens ps q (output ++ [v]) s'
    | some (ParseResult.Failure q r, s') => some (ParseResult.Failure q r, s')

/-- sequence (lines 336-359): a VariadicActionParser over seqGo.  The Python
default action `lambda *x: x` corresponds to passing `Val.list` here.  Plain
strings among the arguments are lifted by the caller (see strLift). -/
def sequence {σ : Type} (parsers : List (Parser σ)) (action : List Val → Val) : Parser σ :=
  { fn := fun tokens position s => seqGo tokens parsers position [] s,
    act := splat action }

/-- Parser.alt (lines 240-252): ordered choice.  Tries this parser; on
success returns its (already transformed) outcome, otherwise tries the other
parser at the same starting position; the wrapping parser's own action is
applied on top by Parser.call. -/
def Parser.alt {σ : Type} (self other : Parser σ) (action : Val → Val) : Parser σ :=
  { fn := fun tokens position s =>
      match self.call tokens position s with
      | Option.none => Option.none
      | some (me, s') => if me.isSuccess then some (me, s') else other.call tokens position s',
    act := action }

/-- The while loop of repeat's do_parse (lines 371-378), fuel-indexed:
`none` at fuel 0 stands for the loop still running (the Python loop has no
step bound, so a run that exhausts every fuel never terminates). -/
def repeatLoop {σ : Type} (repeated : Parser σ) (tokens : List String) :
    Nat → Int → List Val → σ → Option (Int × List Val × σ)
  | 0, _, _, _ => Option.none
  | Nat.succ fuel, position, results, s =>
    match repeated.call tokens position s with
    | Option.none => Option.none
    | some (ParseResult.Success q v, s') => repeatLoop repeated tokens fuel q (results ++ [v]) s'
    | some (ParseResult.Failure _ _, s') => some (position, results, s')

/-- repeat (lines 361-390): greedy repetition, then the cardinality checks.
`maxOccurs = none` models the default `float("inf")`. -/
def repeatP {σ : Type} (repeated : Parser σ) (minOccurs : Nat) (maxOccurs : Option Nat)
    (action : Val → Val) (fuel : Nat) : Parser σ :=
  { fn := fun tokens position s =>
      match repeatLoop repeated tokens fuel position [] s with
      | Option.none => Option.none
      | some (endPos, results, s') =>
        let n := results.length
        if n < minOccurs then
          some (ParseResult.Failure endPos
            ("occurred only " ++ toString n ++ " times (minimum: " ++ toString minOccurs ++ ")"), s')
        else
          match maxOccurs with
          | some mx =>
            if mx < n then
              some (ParseResult.Failure endPos
                ("occurred " ++ toString n ++ " times (maximum: " ++ toString mx ++ ")"), s')
            else some (ParseResult.Success endPos (Val.list results), s')
          | Option.none => some (ParseResult.Success endPos (Val.list results), s'),
    act := action }

/-- optional (lines 392-405): the rule's outcome if it succeeds, otherwise a
Success at the unchanged position carrying None. -/
def optional {σ : Type} (rule : Parser σ) (action : Val → Val) : Parser σ :=
  { fn := fun tokens position s =>
      match rule.call tokens position s with
      | Option.none => Option.none
      | some (result, s') =>
        if result.isSuccess then some (result, s')
        else some (ParseResult.Success position Val.nil, s'),
    act := action }

/-! ## Memoization (lines 438-453)

The decorator attaches a mutable dictionary to the decorated function; the
dictionary is modelled by an association list keyed, as the decorator is,
by the positional argument tuple `(tokens, position)`.  The decorated
function may run arbitrary side-effecting code (actions); that effect is
modelled by a state `γ` the body transforms, so that re-execution of the
body is observable in the state. -/

/-- Memo key of a rule invoked positionally: `(tokens, position)`. -/
abbrev PKey := List String × Int

/-- Reading `fn.__memo`, modelled on an association list. -/
def plookup : List (PKey × ParseResult) → PKey → Option ParseResult
  | [], _ => Option.none
  | (k, r) :: rest, key => if k = key then some r else plookup rest key

/-- memoize's decorated function (lines 447-451): on a cached key returns the
cached result touching nothing; on a fresh key runs the body once (the body's
effect shows in `γ`) and caches the result. -/
def memoized {γ : Type} (fn : γ → PKey → ParseResult × γ)
    (m : List (PKey × ParseResult)) (g : γ) (key : PKey) :
    ParseResult × List (PKey × ParseResult) × γ :=
  match plookup m key with
  | some r => (r, m, g)
  | Option.none =>
    let rg := fn g key
    (rg.1, (key, rg.1) :: m, rg.2)

/-! ## Left recursion support (lines 455-494)

The leftrec decorator's memo entry is a result plus the optional `_is_LR`
attribute: `none` models an object without the attribute (hasattr false),
`some b` an object carrying `_is_LR = b`.  The state every rule threads is
the decorated rule's memo table. -/

/-- Memo key, as for memoize. -/
abbrev Key := List String × Int

/-- A leftrec memo entry: the stored ParseResult and its optional `_is_LR`
attribute. -/
abbrev Entry := ParseResult × Option Bool

/-- The leftrec memo table. -/
abbrev Memo := List (Key × Entry)

/-- Dictionary read. -/
def mlookup : Memo → Key → Option Entry
  | [], _ => Option.none
  | (k, e) :: rest, key => if k = key then some e else mlookup rest key

/-- Dictionary write `fn.__memo[key] = e` (also models in-place mutation of
the stored object's `_is_LR` attribute, since the table holds the only
reference to it). -/
def minsert (m : Memo) (key : Key) (e : Entry) : Memo :=
  (key, e) :: m.filter (fun kv => decide (kv.1 ≠ key))

/-- The left-recursion marker `Failure(-1, "Prevent infinite recursion")`
(line 468), as the ParseResult a re-entrant caller receives. -/
def markerRes : ParseResult := ParseResult.Failure (-1) "Prevent infinite recursion"

/-- The seed-growing `while True` loop (lines 476-486), fuel-indexed
(`none` = the loop has not finished within the fuel): store the current
seed at the key, re-evaluate the body, stop keeping the previous seed when
the new attempt fails or does not advance past the previous seed's
position, otherwise grow. -/
def growRun (body : Rule Memo) (tokens : List String) (pos : Int) :
    Nat → ParseResult → Memo → Option (ParseResult × Memo)
  | 0, _, _ => Option.none
  | Nat.succ fuel, result, m =>
    match body tokens pos (minsert m (tokens, pos) (result, Option.none)) with
    | Option.none => Option.none
    | some (ans, m2) =>
      if ans.isSuccess then
        if ans.position ≤ result.position then some (result, m2)
        else growRun body tokens pos fuel ans m2
      else some (result, m2)

/-- The leftrec decorator (lines 465-494) tied to a possibly self-referring
body: `mkBody recur` is the rule body `fn` with its recursive self-calls
going through the decorated function `recur`.  Fuel bounds the recursion
depth and the growth loop; `none` = not finished within the fuel.

On a key holding an entry with the `_is_LR` attribute (the marker of an
evaluation in progress) the entry is flagged detected and returned as is;
on a plainly cached key the entry is returned untouched; on a fresh key the
marker is installed, the body evaluated, and if re-entry flagged the marker,
the seed-growing loop runs before the final result is stored. -/
def leftrecFix (mkBody : Rule Memo → Rule Memo) : Nat → Rule Memo
  | 0 => fun _ _ _ => Option.none
  | Nat.succ fuel => fun tokens pos m =>
    match mlookup m (tokens, pos) with
    | some (res, some _) => some (res, minsert m (tokens, pos) (res, some true))
    | some (res, Option.none) => some (res, m)
    | Option.none =>
      match mkBody (leftrecFix mkBody fuel) tokens pos
          (minsert m (tokens, pos) (markerRes, some false)) with
      | Option.none => Option.none
      | some (result, m2) =>
        match mlookup m2 (tokens, pos) with
        | some (_, some true) =>
          match growRun (mkBody (leftrecFix mkBody fuel)) tokens pos fuel result m2 with
          | Option.none => Option.none
          | some (result2, m3) => some (result2, minsert m3 (tokens, pos) (result2, Option.none))
        | _ => some (result, minsert m2 (tokens, pos) (result, Option.none))

/-! ## The concrete left-recursive grammar of the test suite

TestParsingUtils.py: `rule := sequence(rule, ',', rule) | "OK"`, with the
recursive references going through the leftrec-decorated rule. -/

/-- parser(fn) (lines 496-498) applied to the decorated rule: wraps the raw
rule function into a Parser with the identity action. -/
def pwrap (r : Rule Memo) : Parser Memo :=
  { fn := r, act := identity }

/-- Parser('lit') (line 224): a plain string handed to a combinator is
lifted to a Parser whose wrapped rule is the text parser itself (so the
end-of-stream guard applies twice, as in the source). -/
def strLift (t : String) : Parser Memo :=
  { fn := fun tokens pos m => (text t identity : Parser Memo).call tokens pos m,
    act := identity }

/-- sequence's default action `lambda *x: x` (line 336): the collected
values as a tuple. -/
def tupleAction : List Val → Val := fun xs => Val.list xs

/-- The body of the test grammar's rule: `(sequence(rule, ',', rule) | "OK")
(tokens, position)`, with `recur` standing for the decorated rule. -/
def mkBodyOK (recur : Rule Memo) : Rule Memo := fun tokens pos m =>
  ((sequence [pwrap recur, strLift ",", pwrap recur] tupleAction).alt
      (strLift "OK") identity).call tokens pos m

/-- The leftrec-decorated test rule at a given fuel. -/
def ruleOK : Nat → Rule Memo := leftrecFix mkBodyOK

/-- The token sequence of "OK , OK , OK". -/
def toksOK : List String := ["OK", ",", "OK", ",", "OK"]

/-- The expected parse tree (OK, ',', (OK, ',', OK)). -/
def okVal : Val :=
  Val.list [Val.str "OK", Val.str ",", Val.list [Val.str "OK", Val.str ",", Val.str "OK"]]

/-- A minimal left-recursive body used to instantiate the generic leftrec
theorem: try the recursive self-call; if it fails answer Success(1, "OK"). -/
def tinyBody (recur : Rule Memo) : Rule Memo := fun tokens pos m =>
  match recur tokens pos m with
  | Option.none => Option.none
  | some (r, m') => if r.isSuccess then some (r, m') else some (ParseResult.Success 1 (Val.str "OK"), m')

/-! ## Python default equality of results

Success and Failure (lines 163-204) define neither `__eq__` nor `__hash__`,
so `==` falls back to `object.__eq__`, which compares object identity.  An
object is modelled as its ParseResult state tagged with an allocation
identity; two separately constructed objects carry distinct identities. -/

/-- A Python object holding a ParseResult: allocation identity plus state. -/
structure PyObj where
  oid : Nat
  val : ParseResult

/-- Python `==` on ParseResult objects: with no `__eq__` defined, identity
comparison. -/
def pyEq (a b : PyObj) : Bool := a.oid == b.oid

/-- Closed instantiation of the leftrec theorem on the minimal grammar
`rule := rule | Success(1, "OK")` over the one-token stream `["OK"]`:
the fresh-key run at fuel 2 returns the base seed, the marker is a Failure,
and a re-entrant call returns the flagged marker. -/
def sTiny : Nat → ParseResult := fun _ => ParseResult.Success 1 (Val.str "OK")

/-- The memo states of the tiny run: after the first (flag-setting) body
evaluation, then after each re-evaluation. -/
def MTiny : Nat → Memo
  | 0 => [(((["OK"] : List String), (0 : Int)), (markerRes, some true))]
  | _ => [(((["OK"] : List String), (0 : Int)), (ParseResult.Success 1 (Val.str "OK"), Option.none))]

/-- Position invariant of a parser: called at a position ≥ 0, any outcome it
hands back has end position ≥ 0, and ≥ the starting position when it is a
Success. -/
def PosInv {σ : Type} (p : Parser σ) : Prop :=
  ∀ (tokens : List String) (pos : Int) (s : σ) (r : ParseResult) (s' : σ),
    0 ≤ pos → p.call tokens pos s = some (r, s') →
    (r.isSuccess = true → pos ≤ r.position) ∧ 0 ≤ r.position

/-! ## Helper lemmas -/

/-- The growth loop follows the chain of seeds: if `s 0, s 1, ...` are the
successive body results (each evaluated with the previous seed stored at the
key), each step up to N succeeds and strictly advances, and step N + 1 fails
or does not advance, then the loop returns seed N together with the memo
state after the last (rejected) re-evaluation. -/
theorem growRun_chain (body : Rule Memo) (tokens : List String) (pos : Int) :
    ∀ (N : Nat) (s : Nat → ParseResult) (M : Nat → Memo) (fuel : Nat), N < fuel →
    (∀ k, k < N + 1 →
      body tokens pos (minsert (M k) (tokens, pos) (s k, Option.none)) = some (s (k + 1), M (k + 1))) →
    (∀ k, k < N → (s (k + 1)).isSuccess = true ∧ (s k).position < (s (k + 1)).position) →
    ((s (N + 1)).isSuccess = false ∨ (s (N + 1)).position ≤ (s N).position) →
    growRun body tokens pos fuel (s 0) (M 0) = some (s N, M (N + 1)) := by
  intro N
  induction N with
  | zero =>
    intro s M fuel hfuel hchain hgrow hstop
    match fuel, hfuel with
    | Nat.succ f, _ =>
      rw [growRun, hchain 0 (by omega)]
      rcases hstop with h | h
      · simp [h]
      · by_cases hs : (s (0 + 1)).isSuccess = true
        · simp [hs, h]
        · simp [hs]
  | succ N ih =>
    intro s M fuel hfuel hchain hgrow hstop
    match fuel, hfuel with
    | Nat.succ f, hfuel =>
      rw [growRun, hchain 0 (by omega)]
      have hg := hgrow 0 (by omega)
      have hnle := not_le.mpr hg.2
      simp only [hg.1, if_true, hnle, if_false]
      exact ih (fun k => s (k + 1)) (fun k => M (k + 1)) f (by omega)
        (fun k hk => hchain (k + 1) (by omega))
        (fun k hk => hgrow (k + 1) (by omega))
        hstop

/-- Any Parser invoked at or past the end of the stream returns the guard's
end-of-stream Failure (Parser.__call__, lines 229-230). -/
theorem call_at_end {σ : Type} (p : Parser σ) (tokens : List String) (pos : Int) (s : σ)
    (h : (tokens.length : Int) ≤ pos) :
    p.call tokens pos s = some (ParseResult.Failure pos "Reached end of token stream", s) := by
  rw [Parser.call, if_pos h]

/-- Unfolding a sequence parser's call below the end of the stream. -/
theorem sequence_call {σ : Type} (l : List (Parser σ)) (act : List Val → Val)
    (tokens : List String) (pos : Int) (s : σ) (h : ¬ (tokens.length : Int) ≤ pos) :
    (sequence l act).call tokens pos s
      = match seqGo tokens l pos [] s with
        | Option.none => Option.none
        | some (r, s') => some (r.transform (splat act), s') := by
  conv_lhs => rw [Parser.call]
  rw [if_neg h]
  rfl

/-- Unfolding an alternation parser's call below the end of the stream. -/
theorem alt_call {σ : Type} (p1 p2 : Parser σ) (act : Val → Val)
    (tokens : List String) (pos : Int) (s : σ) (h : ¬ (tokens.length : Int) ≤ pos) :
    (p1.alt p2 act).call tokens pos s
      = match (match p1.call tokens pos s with
          | Option.none => Option.none
          | some (me, s') => if me.isSuccess then some (me, s') else p2.call tokens pos s') with
        | Option.none => Option.none
        | some (r, s') => some (r.transform act, s') := by
  conv_lhs => rw [Parser.call]
  rw [if_neg h]
  rfl

/-- Threading lemma for sequence: if the prefix xs of the sub-parser list
succeeds (reaching position q with collected values vs), running xs ++ ys
continues with ys from there. -/
theorem seqGo_append {σ : Type} (tokens : List String) (ys : List (Parser σ)) :
    ∀ (xs : List (Parser σ)) (pos : Int) (acc : List Val) (s : σ) (q : Int)
      (vs : List Val) (s1 : σ),
    seqGo tokens xs pos acc s = some (ParseResult.Success q (Val.list vs), s1) →
    seqGo tokens (xs ++ ys) pos acc s = seqGo tokens ys q vs s1 := by
  intro xs
  induction xs with
  | nil =>
    intro pos acc s q vs s1 h
    rw [seqGo] at h
    simp only [Option.some.injEq, Prod.mk.injEq, ParseResult.Success.injEq,
      Val.list.injEq] at h
    obtain ⟨⟨hq, hvs⟩, hs⟩ := h
    subst hq
    subst hvs
    subst hs
    rfl
  | cons p ps ih =>
    intro pos acc s q vs s1 h
    rw [seqGo] at h
    rw [List.cons_append, seqGo]
    cases hc : p.call tokens pos s with
    | none =>
      rw [hc] at h
      exact Option.noConfusion h
    | some rs =>
      obtain ⟨r, s2⟩ := rs
      cases r with
      | Success q2 v =>
        rw [hc] at h
        exact ih q2 (acc ++ [v]) s2 q vs s1 h
      | Failure fq fr =>
        rw [hc] at h
        simp at h

/-! ## Claims -/

/-- C1: a leftrec-decorated rule invoked at a fresh (tokens, position) key
installs the marker; a re-entrant call at the same key receives the marker —
a Failure — back and sets the detected flag; with detection flagged, the
decorator runs the seed-growing loop, and the final memoized result returned
to the original caller is the last seed s N such that every re-evaluation up
to it succeeded and strictly advanced past the previous seed's position,
growth stopping (keeping the previous seed) at the first re-evaluation that
fails or does not advance.  The hypotheses record the evaluation trace of
the body: its first evaluation (against the installed marker) produced s 0
and flagged the key, and each re-evaluation against seed s k produced
s (k + 1). -/
theorem leftrec_seed_growth (mkBody : Rule Memo → Rule Memo) (tokens : List String)
    (pos : Int) (m : Memo) (s : Nat → ParseResult) (M : Nat → Memo) (N fuel : Nat)
    (hfresh : mlookup m (tokens, pos) = Option.none)
    (hfirst : mkBody (leftrecFix mkBody fuel) tokens pos
        (minsert m (tokens, pos) (markerRes, some false)) = some (s 0, M 0))
    (hdet : mlookup (M 0) (tokens, pos) = some (markerRes, some true))
    (hchain : ∀ k, k < N + 1 → mkBody (leftrecFix mkBody fuel) tokens pos
        (minsert (M k) (tokens, pos) (s k, Option.none)) = some (s (k + 1), M (k + 1)))
    (hgrow : ∀ k, k < N → (s (k + 1)).isSuccess = true ∧ (s k).position < (s (k + 1)).position)
    (hstop : (s (N + 1)).isSuccess = false ∨ (s (N + 1)).position ≤ (s N).position)
    (hfuel : N < fuel) :
    leftrecFix mkBody (fuel + 1) tokens pos m
      = some (s N, minsert (M (N + 1)) (tokens, pos) (s N, Option.none))
    ∧ markerRes.isSuccess = false
    ∧ (∀ (f : Nat) (m' : Memo) (res : ParseResult) (fl : Bool),
        mlookup m' (tokens, pos) = some (res, some fl) →
        leftrecFix mkBody (f + 1) tokens pos m'
          = some (res, minsert m' (tokens, pos) (res, some true))) := by
  refine ⟨?_, rfl, ?_⟩
  · have hg := growRun_chain (mkBody (leftrecFix mkBody fuel)) tokens pos N s M fuel
      hfuel hchain hgrow hstop
    simp only [leftrecFix, hfresh, hfirst, hdet, hg]
  · intro f m' res fl hm
    simp only [leftrecFix, hm]

/-- C1 witness: the leftrec theorem discharged on the tiny grammar at
concrete inputs. -/
theorem leftrec_seed_growth_witness :
    leftrecFix tinyBody 2 ["OK"] 0 []
      = some (sTiny 0, minsert (MTiny 1) (["OK"], 0) (sTiny 0, Option.none))
    ∧ markerRes.isSuccess = false
    ∧ (∀ (f : Nat) (m' : Memo) (res : ParseResult) (fl : Bool),
        mlookup m' (["OK"], 0) = some (res, some fl) →
        leftrecFix tinyBody (f + 1) ["OK"] 0 m'
          = some (res, minsert m' (["OK"], 0) (res, some true))) :=
  leftrec_seed_growth tinyBody ["OK"] 0 [] sTiny MTiny 0 1
    rfl rfl rfl
    (by intro k hk; have hz : k = 0 := by omega
        subst hz; rfl)
    (by intro k hk; omega)
    (Or.inr (by decide))
    (by decide)

/-- C2: the leftrec-decorated rule `rule := rule ',' rule | "OK"` applied at
position 0 to the five tokens of "OK , OK , OK" terminates (completes within
fuel 20) and returns Success at position 5 — the full token count — whose
value is the nested pair structure (OK, ',', (OK, ',', OK)). -/
theorem leftrec_ok_example :
    (ruleOK 20 toksOK 0 []).map Prod.fst
      = some (ParseResult.Success ((toksOK.length : Nat) : Int) okVal) := by
  rfl

/-- C3 counterexample: at position = len(tokens) the optional parser does
fail — Parser.__call__'s end-of-stream guard runs before optional's body —
refuting that optional(p)(tokens, pos) is a Success for every
0 ≤ pos ≤ len(tokens). -/
theorem optional_fails_at_end_of_stream :
    (optional (text "X" identity) identity : Parser Unit).call ["a"] 1 ()
      = some (ParseResult.Failure 1 "Reached end of token stream", ())
    ∧ (ParseResult.Failure 1 "Reached end of token stream").isSuccess = false :=
  ⟨rfl, rfl⟩

/-- C3 (amended): for 0 ≤ position < len(tokens), optional(p) never fails
whenever p itself returns an outcome: the result is p's outcome (action
applied) if p succeeds, and Success at the unchanged starting position
carrying the absent sentinel — with the action applied to it — if p fails;
at position ≥ len(tokens) the Parser wrapper instead returns the
end-of-stream Failure before optional's body runs. -/
theorem optional_succeeds_below_end {σ : Type} (p : Parser σ) (action : Val → Val)
    (tokens : List String) (pos : Int) (s : σ) (r : ParseResult) (s' : σ)
    (hlt : pos < (tokens.length : Int))
    (hp : p.call tokens pos s = some (r, s')) :
    ((optional p action).call tokens pos s
      = some ((if r.isSuccess then r else ParseResult.Success pos Val.nil).transform action, s'))
    ∧ ((if r.isSuccess then r else ParseResult.Success pos Val.nil).transform action).isSuccess
      = true
    ∧ (r.isSuccess = false →
      (optional p action).call tokens pos s = some (ParseResult.Success pos (action Val.nil), s'))
    ∧ (∀ (q : Int) (s0 : σ), (tokens.length : Int) ≤ q →
      (optional p action).call tokens q s0
        = some (ParseResult.Failure q "Reached end of token stream", s0)) := by
  have hng := not_le.mpr hlt
  refine ⟨?_, ?_, ?_, ?_⟩
  · conv_lhs => rw [Parser.call]
    rw [if_neg hng]
    simp only [optional]
    rw [hp]
    cases r with
    | Success q v => rfl
    | Failure q msg => rfl
  · cases r with
    | Success q v => rfl
    | Failure q msg => rfl
  · intro hf
    conv_lhs => rw [Parser.call]
    rw [if_neg hng]
    simp only [optional]
    rw [hp]
    cases r with
    | Success q v => simp [ParseResult.isSuccess] at hf
    | Failure q msg => rfl
  · intro q s0 hq
    conv_lhs => rw [Parser.call]
    rw [if_pos hq]

/-- C3 witness: the amended optional theorem at the concrete parser
text("X"), the one-token stream ["a"] and position 0, where the inner rule
fails. -/
theorem optional_succeeds_below_end_witness :
    ((optional (text "X" identity) identity : Parser Unit).call ["a"] 0 ()
      = some ((if (ParseResult.Failure 0 "Expected X instead of a").isSuccess
          then ParseResult.Failure 0 "Expected X instead of a"
          else ParseResult.Success 0 Val.nil).transform identity, ()))
    ∧ ((if (ParseResult.Failure 0 "Expected X instead of a").isSuccess
          then ParseResult.Failure 0 "Expected X instead of a"
          else ParseResult.Success 0 Val.nil).transform identity).isSuccess = true
    ∧ ((ParseResult.Failure 0 "Expected X instead of a").isSuccess = false →
      (optional (text "X" identity) identity : Parser Unit).call ["a"] 0 ()
        = some (ParseResult.Success 0 (identity Val.nil), ()))
    ∧ (∀ (q : Int) (s0 : Unit), ((["a"] : List String).length : Int) ≤ q →
      (optional (text "X" identity) identity : Parser Unit).call ["a"] q s0
        = some (ParseResult.Failure q "Reached end of token stream", s0)) :=
  optional_succeeds_below_end (text "X" identity) identity ["a"] 0 ()
    (ParseResult.Failure 0 "Expected X instead of a") () (by decide) rfl

/-- C4: Success and Failure define no __eq__, so Python compares object
identity: two separately constructed objects with the same variant, position
and value (resp. reason) — the allocation identities 0,1 and 2,3 — are not
equal under the code's `==` even though their states coincide, contradicting
the claimed structural equality law (and the repository's own
TestParseResults tests). -/
theorem default_result_equality_is_identity :
    pyEq ⟨0, ParseResult.Success 1 (Val.str "Bonjour")⟩
        ⟨1, ParseResult.Success 1 (Val.str "Bonjour")⟩ = false
    ∧ (PyObj.mk 0 (ParseResult.Success 1 (Val.str "Bonjour"))).val
      = (PyObj.mk 1 (ParseResult.Success 1 (Val.str "Bonjour"))).val
    ∧ pyEq ⟨2, ParseResult.Failure 1 "Because"⟩ ⟨3, ParseResult.Failure 1 "Because"⟩ = false
    ∧ (PyObj.mk 2 (ParseResult.Failure 1 "Because")).val
      = (PyObj.mk 3 (ParseResult.Failure 1 "Because")).val :=
  ⟨rfl, rfl, rfl, rfl⟩

/-- C5: the primitive parsers text, one_of and regex are total over
0 ≤ position ≤ len(tokens) — no out-of-bounds indexing fault (the call
returns an outcome) — and at position = len(tokens) each returns the
end-of-stream Failure at that position. -/
theorem primitives_total {σ : Type} (tokens : List String) (pos : Int) (s : σ)
    (t : String) (enumerated : List String) (pattern : String)
    (accepts : String → Bool) (action : Val → Val)
    (h0 : 0 ≤ pos) (hle : pos ≤ (tokens.length : Int)) :
    (((text t action : Parser σ).call tokens pos s).isSome = true
      ∧ ((one_of enumerated action : Parser σ).call tokens pos s).isSome = true
      ∧ ((regex pattern accepts action : Parser σ).call tokens pos s).isSome = true)
    ∧ (pos = (tokens.length : Int) →
      ((text t action : Parser σ).call tokens pos s
          = some (ParseResult.Failure pos "Reached end of token stream", s))
      ∧ ((one_of enumerated action : Parser σ).call tokens pos s
          = some (ParseResult.Failure pos "Reached end of token stream", s))
      ∧ ((regex pattern accepts action : Parser σ).call tokens pos s
          = some (ParseResult.Failure pos "Reached end of token stream", s))) := by
  by_cases hpos : (tokens.length : Int) ≤ pos
  · constructor
    · simp [Parser.call, if_pos hpos]
    · intro _
      simp [Parser.call, if_pos hpos]
  · have hlt := not_le.mp hpos
    have hn : pos.toNat < tokens.length := by omega
    have htok : tokenAt tokens pos = some (tokens.get ⟨pos.toNat, hn⟩) := by
      simp [tokenAt, h0, List.get?_eq_get hn]
    constructor
    · simp [Parser.call, if_neg hpos, text, one_of, regex,
        textFn, one_ofFn, regexFn, htok, Option.map_some']
    · intro heq
      exact absurd (heq ▸ le_refl pos) hpos

/-- C5 witness: totality discharged at the concrete stream ["a"] and
position 1 = len. -/
theorem primitives_total_witness :
    (((text "t" identity : Parser Unit).call ["a"] 1 ()).isSome = true
      ∧ ((one_of ["x", "y"] identity : Parser Unit).call ["a"] 1 ()).isSome = true
      ∧ ((regex "p" (fun _ => true) identity : Parser Unit).call ["a"] 1 ()).isSome = true)
    ∧ ((1 : Int) = ((["a"] : List String).length : Int) →
      ((text "t" identity : Parser Unit).call ["a"] 1 ()
          = some (ParseResult.Failure 1 "Reached end of token stream", ()))
      ∧ ((one_of ["x", "y"] identity : Parser Unit).call ["a"] 1 ()
          = some (ParseResult.Failure 1 "Reached end of token stream", ()))
      ∧ ((regex "p" (fun _ => true) identity : Parser Unit).call ["a"] 1 ()
          = some (ParseResult.Failure 1 "Reached end of token stream", ()))) :=
  primitives_total ["a"] 1 () "t" ["x", "y"] "p" (fun _ => true) identity
    (by decide) (by decide)

/-- C6: for sequence(p1, ..., pn, action) with n ≥ 1, split the sub-parser
list as pre ++ pf :: rest.  If every parser of pre succeeds (threading the
position from pos up to q) and pf then fails, the whole sequence returns
pf's Failure verbatim (same position, same reason, same state), and the
parsers of rest are never invoked — the outcome is the same for every
replacement rest'.  If instead all sub-parsers succeed, the result is a
Success at the final threaded position whose value is the action applied to
the collected values in left-to-right order. -/
theorem sequence_short_circuit_and_success {σ : Type} (tokens : List String)
    (act : List Val → Val) :
    (∀ (pre : List (Parser σ)) (pf : Parser σ) (rest : List (Parser σ)) (pos : Int)
        (s : σ) (q : Int) (vs : List Val) (s1 : σ) (fq : Int) (fr : String) (s2 : σ),
      seqGo tokens pre pos [] s = some (ParseResult.Success q (Val.list vs), s1) →
      pf.call tokens q s1 = some (ParseResult.Failure fq fr, s2) →
      (sequence (pre ++ pf :: rest) act).call tokens pos s
          = some (ParseResult.Failure fq fr, s2)
      ∧ (∀ rest' : List (Parser σ),
          (sequence (pre ++ pf :: rest') act).call tokens pos s
            = some (ParseResult.Failure fq fr, s2)))
    ∧ (∀ (p0 : Parser σ) (ps : List (Parser σ)) (pos : Int) (s : σ) (q : Int)
        (vs : List Val) (s' : σ),
      seqGo tokens (p0 :: ps) pos [] s = some (ParseResult.Success q (Val.list vs), s') →
      (sequence (p0 :: ps) act).call tokens pos s
        = some (ParseResult.Success q (act vs), s')) := by
  have main : ∀ (pre : List (Parser σ)) (pf : Parser σ) (rest : List (Parser σ)) (pos : Int)
      (s : σ) (q : Int) (vs : List Val) (s1 : σ) (fq : Int) (fr : String) (s2 : σ),
      seqGo tokens pre pos [] s = some (ParseResult.Success q (Val.list vs), s1) →
      pf.call tokens q s1 = some (ParseResult.Failure fq fr, s2) →
      (sequence (pre ++ pf :: rest) act).call tokens pos s
        = some (ParseResult.Failure fq fr, s2) := by
    intro pre pf rest pos s q vs s1 fq fr s2 hpre hpf
    by_cases hpos : (tokens.length : Int) ≤ pos
    · cases pre with
      | cons p0 ps =>
        exfalso
        rw [seqGo, call_at_end p0 tokens pos s hpos] at hpre
        simp at hpre
      | nil =>
        rw [seqGo] at hpre
        simp only [Option.some.injEq, Prod.mk.injEq, ParseResult.Success.injEq,
          Val.list.injEq] at hpre
        obtain ⟨⟨hq, _⟩, hs⟩ := hpre
        subst hq
        subst hs
        rw [call_at_end pf tokens pos s hpos] at hpf
        simp only [Option.some.injEq, Prod.mk.injEq, ParseResult.Failure.injEq] at hpf
        obtain ⟨⟨hfq, hfr⟩, hs2⟩ := hpf
        subst hfq
        subst hfr
        subst hs2
        exact call_at_end _ tokens pos s hpos
    · have hseq : seqGo tokens (pre ++ pf :: rest) pos [] s
          = some (ParseResult.Failure fq fr, s2) := by
        rw [seqGo_append tokens (pf :: rest) pre pos [] s q vs s1 hpre, seqGo, hpf]
      rw [sequence_call _ act tokens pos s hpos, hseq]
      rfl
  constructor
  · intro pre pf rest pos s q vs s1 fq fr s2 hpre hpf
    exact ⟨main pre pf rest pos s q vs s1 fq fr s2 hpre hpf,
      fun rest' => main pre pf rest' pos s q vs s1 fq fr s2 hpre hpf⟩
  · intro p0 ps pos s q vs s' h
    have hpos : ¬ (tokens.length : Int) ≤ pos := by
      intro hge
      rw [seqGo, call_at_end p0 tokens pos s hge] at h
      simp at h
    rw [sequence_call _ act tokens pos s hpos, h]
    rfl

/-- C7: below the end of the stream, p1.alt(p2) first attempts p1.  If p1
succeeds, the alternation returns p1's outcome (transformed by the
alternation's action) and the result does not depend on p2 at all — p2 is
never invoked.  If p1 fails, p2 is attempted at the original starting
position; and if p2 also fails, the alternation's outcome is exactly p2's
Failure (p1's diagnostic is discarded). -/
theorem alt_ordered_choice {σ : Type} (p1 p2 : Parser σ) (action : Val → Val)
    (tokens : List String) (pos : Int) (s : σ)
    (hlt : pos < (tokens.length : Int)) :
    (∀ (r : ParseResult) (s' : σ), p1.call tokens pos s = some (r, s') →
      r.isSuccess = true →
      (p1.alt p2 action).call tokens pos s = some (r.transform action, s')
      ∧ (∀ p2' : Parser σ,
          (p1.alt p2' action).call tokens pos s = some (r.transform action, s')))
    ∧ (∀ (r : ParseResult) (s' : σ), p1.call tokens pos s = some (r, s') →
      r.isSuccess = false →
      (p1.alt p2 action).call tokens pos s
        = match p2.call tokens pos s' with
          | Option.none => Option.none
          | some (r2, s2) => some (r2.transform action, s2))
    ∧ (∀ (r : ParseResult) (s' : σ) (fq : Int) (fr : String) (s2 : σ),
      p1.call tokens pos s = some (r, s') → r.isSuccess = false →
      p2.call tokens pos s' = some (ParseResult.Failure fq fr, s2) →
      (p1.alt p2 action).call tokens pos s = some (ParseResult.Failure fq fr, s2)) := by
  have hng := not_le.mpr hlt
  refine ⟨?_, ?_, ?_⟩
  · intro r s' hp hs
    have one : ∀ p' : Parser σ,
        (p1.alt p' action).call tokens pos s = some (r.transform action, s') := by
      intro p'
      rw [alt_call p1 p' action tokens pos s hng, hp]
      simp [hs]
    exact ⟨one p2, one⟩
  · intro r s' hp hs
    rw [alt_call p1 p2 action tokens pos s hng, hp]
    simp only [hs, Bool.false_eq_true, if_false]
  · intro r s' fq fr s2 hp hs hp2
    rw [alt_call p1 p2 action tokens pos s hng, hp]
    simp only [hs, Bool.false_eq_true, if_false, hp2]
    rfl

/-- C7 witness: the ordered-choice theorem discharged on text("BANG") and
text("GO") over the stream ["GO"] at position 0, where the first branch
fails and the second succeeds. -/
theorem alt_ordered_choice_witness :
    (∀ (r : ParseResult) (s' : Unit),
      (text "BANG" identity : Parser Unit).call ["GO"] 0 () = some (r, s') →
      r.isSuccess = true →
      ((text "BANG" identity : Parser Unit).alt (text "GO" identity) identity).call ["GO"] 0 ()
          = some (r.transform identity, s')
      ∧ (∀ p2' : Parser Unit,
          ((text "BANG" identity : Parser Unit).alt p2' identity).call ["GO"] 0 ()
            = some (r.transform identity, s')))
    ∧ (∀ (r : ParseResult) (s' : Unit),
      (text "BANG" identity : Parser Unit).call ["GO"] 0 () = some (r, s') →
      r.isSuccess = false →
      ((text "BANG" identity : Parser Unit).alt (text "GO" identity) identity).call ["GO"] 0 ()
        = match (text "GO" identity : Parser Unit).call ["GO"] 0 s' with
          | Option.none => Option.none
          | some (r2, s2) => some (r2.transform identity, s2))
    ∧ (∀ (r : ParseResult) (s' : Unit) (fq : Int) (fr : String) (s2 : Unit),
      (text "BANG" identity : Parser Unit).call ["GO"] 0 () = some (r, s') →
      r.isSuccess = false →
      (text "GO" identity : Parser Unit).call ["GO"] 0 s' = some (ParseResult.Failure fq fr, s2) →
      ((text "BANG" identity : Parser Unit).alt (text "GO" identity) identity).call ["GO"] 0 ()
        = some (ParseResult.Failure fq fr, s2)) :=
  alt_ordered_choice (text "BANG" identity) (text "GO" identity) identity ["GO"] 0 ()
    (by decide)

/-- C8: a memoize-decorated rule called twice at the same fresh key executes
its body exactly once: the first call runs the body (its result and state
effect are the body's), and the second call returns an equal result while
leaving the memo table and the effect state untouched. -/
theorem memoize_executes_once {γ : Type} (fn : γ → PKey → ParseResult × γ)
    (m : List (PKey × ParseResult)) (g : γ) (key : PKey)
    (r1 r2 : ParseResult) (m1 m2 : List (PKey × ParseResult)) (g1 g2 : γ)
    (hfresh : plookup m key = Option.none)
    (h1 : memoized fn m g key = (r1, m1, g1))
    (h2 : memoized fn m1 g1 key = (r2, m2, g2)) :
    r1 = (fn g key).1 ∧ g1 = (fn g key).2
    ∧ r2 = r1 ∧ g2 = g1 ∧ m2 = m1 := by
  simp only [memoized, hfresh] at h1
  simp only [Prod.mk.injEq] at h1
  obtain ⟨hr1, hm1, hg1⟩ := h1
  have hcached : plookup m1 key = some r1 := by
    rw [← hm1, ← hr1, plookup, if_pos rfl]
  simp only [memoized, hcached] at h2
  simp only [Prod.mk.injEq] at h2
  obtain ⟨hr2, hm2, hg2⟩ := h2
  exact ⟨hr1.symm, hg1.symm, hr2.symm, hg2.symm, hm2.symm⟩

/-- C8 witness: the memoize theorem discharged on a body that bumps a
counter state, at the key (["a"], 0) and the empty memo. -/
theorem memoize_executes_once_witness :
    ParseResult.Success 1 Val.nil
        = ((fun (g : Int) (_ : PKey) => (ParseResult.Success 1 Val.nil, g + 1)) 0 (["a"], 0)).1
    ∧ (1 : Int) = ((fun (g : Int) (_ : PKey) => (ParseResult.Success 1 Val.nil, g + 1)) 0 (["a"], 0)).2
    ∧ ParseResult.Success 1 Val.nil = ParseResult.Success 1 Val.nil
    ∧ (1 : Int) = 1
    ∧ [(((["a"] : List String), (0 : Int)), ParseResult.Success 1 Val.nil)]
        = [(((["a"] : List String), (0 : Int)), ParseResult.Success 1 Val.nil)] :=
  memoize_executes_once (fun (g : Int) (_ : PKey) => (ParseResult.Success 1 Val.nil, g + 1))
    [] 0 (["a"], 0) (ParseResult.Success 1 Val.nil) (ParseResult.Success 1 Val.nil)
    [(((["a"] : List String), (0 : Int)), ParseResult.Success 1 Val.nil)]
    [(((["a"] : List String), (0 : Int)), ParseResult.Success 1 Val.nil)]
    1 1 rfl rfl rfl

/-! ## Position invariants -/

/-- The invariant only depends on the wrapped rule: the end-of-stream guard
fails at the nonnegative starting position, and the action transform keeps
variant and position. -/
theorem posInv_of_fn {σ : Type} (p : Parser σ)
    (h : ∀ (tokens : List String) (pos : Int) (s : σ) (r : ParseResult) (s' : σ),
      0 ≤ pos → p.fn tokens pos s = some (r, s') →
      (r.isSuccess = true → pos ≤ r.position) ∧ 0 ≤ r.position) :
    PosInv p := by
  intro tokens pos s r s' h0 hc
  rw [Parser.call] at hc
  by_cases hpos : (tokens.length : Int) ≤ pos
  · rw [if_pos hpos] at hc
    simp only [Option.some.injEq, Prod.mk.injEq] at hc
    obtain ⟨hr, _⟩ := hc
    subst hr
    constructor
    · intro hsu
      simp [ParseResult.isSuccess] at hsu
    · exact h0
  · rw [if_neg hpos] at hc
    cases hf : p.fn tokens pos s with
    | none =>
      rw [hf] at hc
      exact Option.noConfusion hc
    | some rs =>
      obtain ⟨r0, s0⟩ := rs
      rw [hf] at hc
      simp only [Option.some.injEq, Prod.mk.injEq] at hc
      obtain ⟨hr, _⟩ := hc
      subst hr
      have hinv := h tokens pos s r0 s0 h0 hf
      cases r0 with
      | Success q v => exact ⟨fun _ => hinv.1 rfl, hinv.2⟩
      | Failure fq fr =>
        constructor
        · intro hsu
          simp [ParseResult.transform, ParseResult.isSuccess] at hsu
        · exact hinv.2

/-- Outcomes of the text rule body respect the position invariant. -/
theorem textFn_result (t : String) (tokens : List String) (pos : Int) (r : ParseResult)
    (h0 : 0 ≤ pos) (h : textFn t tokens pos = some r) :
    (r.isSuccess = true → pos ≤ r.position) ∧ 0 ≤ r.position := by
  unfold textFn at h
  cases htok : tokenAt tokens pos with
  | none =>
    rw [htok] at h
    exact Option.noConfusion h
  | some tok =>
    rw [htok] at h
    simp only [Option.map_some', Option.some.injEq] at h
    subst h
    by_cases hc : tok = t
    · simp only [if_pos hc, ParseResult.isSuccess, ParseResult.position]
      exact ⟨fun _ => by omega, by omega⟩
    · simp only [if_neg hc, ParseResult.isSuccess, ParseResult.position]
      exact ⟨fun hsu => by simp at hsu, h0⟩

/-- Outcomes of the one_of rule body respect the position invariant. -/
theorem one_ofFn_result (l : List String) (tokens : List String) (pos : Int) (r : ParseResult)
    (h0 : 0 ≤ pos) (h : one_ofFn l tokens pos = some r) :
    (r.isSuccess = true → pos ≤ r.position) ∧ 0 ≤ r.position := by
  unfold one_ofFn at h
  cases htok : tokenAt tokens pos with
  | none =>
    rw [htok] at h
    exact Option.noConfusion h
  | some tok =>
    rw [htok] at h
    simp only [Option.map_some', Option.some.injEq] at h
    subst h
    by_cases hc : l.contains tok
    · simp only [if_pos hc, ParseResult.isSuccess, ParseResult.position]
      exact ⟨fun _ => by omega, by omega⟩
    · simp only [if_neg hc, ParseResult.isSuccess, ParseResult.position]
      exact ⟨fun hsu => by simp at hsu, h0⟩

/-- Outcomes of the regex rule body respect the position invariant. -/
theorem regexFn_result (pat : String) (f : String → Bool) (tokens : List String) (pos : Int)
    (r : ParseResult) (h0 : 0 ≤ pos) (h : regexFn pat f tokens pos = some r) :
    (r.isSuccess = true → pos ≤ r.position) ∧ 0 ≤ r.position := by
  unfold regexFn at h
  cases htok : tokenAt tokens pos with
  | none =>
    rw [htok] at h
    exact Option.noConfusion h
  | some tok =>
    rw [htok] at h
    simp only [Option.map_some', Option.some.injEq] at h
    subst h
    by_cases hc : f tok = true
    · simp only [if_pos hc, ParseResult.isSuccess, ParseResult.position]
      exact ⟨fun _ => by omega, by omega⟩
    · simp only [if_neg hc, ParseResult.isSuccess, ParseResult.position]
      exact ⟨fun hsu => by simp at hsu, h0⟩

/-- text satisfies the position invariant. -/
theorem posInv_text {σ : Type} (t : String) (a : Val → Val) : PosInv (text t a : Parser σ) := by
  apply posInv_of_fn
  intro tokens pos s r s' h0 hf
  have hf' : (textFn t tokens pos).map (fun r => (r, s)) = some (r, s') := hf
  cases ht : textFn t tokens pos with
  | none =>
    rw [ht] at hf'
    exact Option.noConfusion hf'
  | some r0 =>
    rw [ht] at hf'
    simp only [Option.map_some', Option.some.injEq, Prod.mk.injEq] at hf'
    obtain ⟨hr, _⟩ := hf'
    subst hr
    exact textFn_result t tokens pos r0 h0 ht

/-- one_of satisfies the position invariant. -/
theorem posInv_one_of {σ : Type} (l : List String) (a : Val → Val) :
    PosInv (one_of l a : Parser σ) := by
  apply posInv_of_fn
  intro tokens pos s r s' h0 hf
  have hf' : (one_ofFn l tokens pos).map (fun r => (r, s)) = some (r, s') := hf
  cases ht : one_ofFn l tokens pos with
  | none =>
    rw [ht] at hf'
    exact Option.noConfusion hf'
  | some r0 =>
    rw [ht] at hf'
    simp only [Option.map_some', Option.some.injEq, Prod.mk.injEq] at hf'
    obtain ⟨hr, _⟩ := hf'
    subst hr
    exact one_ofFn_result l tokens pos r0 h0 ht

/-- regex satisfies the position invariant. -/
theorem posInv_regex {σ : Type} (pat : String) (f : String → Bool) (a : Val → Val) :
    PosInv (regex pat f a : Parser σ) := by
  apply posInv_of_fn
  intro tokens pos s r s' h0 hf
  have hf' : (regexFn pat f tokens pos).map (fun r => (r, s)) = some (r, s') := hf
  cases ht : regexFn pat f tokens pos with
  | none =>
    rw [ht] at hf'
    exact Option.noConfusion hf'
  | some r0 =>
    rw [ht] at hf'
    simp only [Option.map_some', Option.some.injEq, Prod.mk.injEq] at hf'
    obtain ⟨hr, _⟩ := hf'
    subst hr
    exact regexFn_result pat f tokens pos r0 h0 ht

/-- The sequence loop respects the position invariant when every sub-parser
does. -/
theorem posInv_seqGo {σ : Type} (tokens : List String) :
    ∀ (l : List (Parser σ)), (∀ p ∈ l, PosInv p) →
    ∀ (pos : Int) (acc : List Val) (s : σ) (r : ParseResult) (s' : σ),
      0 ≤ pos → seqGo tokens l pos acc s = some (r, s') →
      (r.isSuccess = true → pos ≤ r.position) ∧ 0 ≤ r.position := by
  intro l
  induction l with
  | nil =>
    intro _ pos acc s r s' h0 h
    rw [seqGo] at h
    simp only [Option.some.injEq, Prod.mk.injEq] at h
    obtain ⟨hr, _⟩ := h
    subst hr
    exact ⟨fun _ => le_refl pos, h0⟩
  | cons p ps ih =>
    intro hl pos acc s r s' h0 h
    rw [seqGo] at h
    cases hc : p.call tokens pos s with
    | none =>
      rw [hc] at h
      exact Option.noConfusion h
    | some rs =>
      obtain ⟨r0, s0⟩ := rs
      have hp := hl p (List.mem_cons_self p ps) tokens pos s r0 s0 h0 hc
      cases r0 with
      | Success q v =>
        rw [hc] at h
        have hq0 : 0 ≤ q := hp.2
        have hpq : pos ≤ q := hp.1 rfl
        have htail := ih (fun p hp => hl p (List.mem_cons_of_mem _ hp)) q (acc ++ [v]) s0 r s' hq0 h
        exact ⟨fun hsu => le_trans hpq (htail.1 hsu), htail.2⟩
      | Failure fq fr =>
        rw [hc] at h
        simp only [Option.some.injEq, Prod.mk.injEq] at h
        obtain ⟨hr, _⟩ := h
        subst hr
        exact ⟨fun hsu => by simp [ParseResult.isSuccess] at hsu, hp.2⟩

/-- sequence satisfies the position invariant when every sub-parser does. -/
theorem posInv_sequence {σ : Type} (l : List (Parser σ)) (a : List Val → Val)
    (hl : ∀ p ∈ l, PosInv p) : PosInv (sequence l a) := by
  apply posInv_of_fn
  intro tokens pos s r s' h0 hf
  exact posInv_seqGo tokens l hl pos [] s r s' h0 hf

/-- alt satisfies the position invariant when both branches do. -/
theorem posInv_alt {σ : Type} (p1 p2 : Parser σ) (a : Val → Val)
    (h1 : PosInv p1) (h2 : PosInv p2) : PosInv (p1.alt p2 a) := by
  apply posInv_of_fn
  intro tokens pos s r s' h0 hf
  have hf' : (match p1.call tokens pos s with
      | Option.none => Option.none
      | some (me, s1) => if me.isSuccess then some (me, s1) else p2.call tokens pos s1)
      = some (r, s') := hf
  cases hc : p1.call tokens pos s with
  | none =>
    rw [hc] at hf'
    exact Option.noConfusion hf'
  | some rs =>
    obtain ⟨me, s1⟩ := rs
    rw [hc] at hf'
    have hf2 : (if me.isSuccess = true then some (me, s1) else p2.call tokens pos s1)
        = some (r, s') := hf'
    by_cases hsu : me.isSuccess = true
    · rw [if_pos hsu] at hf2
      simp only [Option.some.injEq, Prod.mk.injEq] at hf2
      obtain ⟨hr, _⟩ := hf2
      subst hr
      exact h1 tokens pos s me s1 h0 hc
    · rw [if_neg hsu] at hf2
      exact h2 tokens pos s1 r s' h0 hf2

/-- optional satisfies the position invariant when the inner rule does. -/
theorem posInv_optional {σ : Type} (p : Parser σ) (a : Val → Val)
    (hp : PosInv p) : PosInv (optional p a) := by
  apply posInv_of_fn
  intro tokens pos s r s' h0 hf
  have hf' : (match p.call tokens pos s with
      | Option.none => Option.none
      | some (result, s1) =>
        if result.isSuccess then some (result, s1)
        else some (ParseResult.Success pos Val.nil, s1)) = some (r, s') := hf
  cases hc : p.call tokens pos s with
  | none =>
    rw [hc] at hf'
    exact Option.noConfusion hf'
  | some rs =>
    obtain ⟨r0, s1⟩ := rs
    rw [hc] at hf'
    have hf2 : (if r0.isSuccess = true then some (r0, s1)
        else some (ParseResult.Success pos Val.nil, s1)) = some (r, s') := hf'
    by_cases hsu : r0.isSuccess = true
    · rw [if_pos hsu] at hf2
      simp only [Option.some.injEq, Prod.mk.injEq] at hf2
      obtain ⟨hr, _⟩ := hf2
      subst hr
      exact hp tokens pos s r0 s1 h0 hc
    · rw [if_neg hsu] at hf2
      simp only [Option.some.injEq, Prod.mk.injEq] at hf2
      obtain ⟨hr, _⟩ := hf2
      subst hr
      exact ⟨fun _ => le_refl pos, h0⟩

/-- The repeat loop only moves the position forward. -/
theorem repeatLoop_pos {σ : Type} (p : Parser σ) (tokens : List String) (hp : PosInv p) :
    ∀ (fuel : Nat) (pos : Int) (acc : List Val) (s : σ) (endPos : Int)
      (results : List Val) (s' : σ),
    0 ≤ pos → repeatLoop p tokens fuel pos acc s = some (endPos, results, s') →
    pos ≤ endPos ∧ 0 ≤ endPos := by
  intro fuel
  induction fuel with
  | zero =>
    intro pos acc s endPos results s' h0 h
    exact Option.noConfusion h
  | succ fuel ih =>
    intro pos acc s endPos results s' h0 h
    rw [repeatLoop] at h
    cases hc : p.call tokens pos s with
    | none =>
      rw [hc] at h
      exact Option.noConfusion h
    | some rs =>
      obtain ⟨r0, s0⟩ := rs
      have hinv := hp tokens pos s r0 s0 h0 hc
      cases r0 with
      | Success q v =>
        rw [hc] at h
        have hq0 : 0 ≤ q := hinv.2
        have := ih q (acc ++ [v]) s0 endPos results s' hq0 h
        exact ⟨le_trans (hinv.1 rfl) this.1, this.2⟩
      | Failure fq fr =>
        rw [hc] at h
        simp only [Option.some.injEq, Prod.mk.injEq] at h
        obtain ⟨hq, _⟩ := h
        subst hq
        exact ⟨le_refl pos, h0⟩

/-- repeat satisfies the position invariant when the repeated rule does. -/
theorem posInv_repeat {σ : Type} (p : Parser σ) (mn : Nat) (mx : Option Nat)
    (a : Val → Val) (fuel : Nat) (hp : PosInv p) : PosInv (repeatP p mn mx a fuel) := by
  apply posInv_of_fn
  intro tokens pos s r s' h0 hf
  cases mx with
  | none =>
    have hf' : (match repeatLoop p tokens fuel pos [] s with
        | Option.none => Option.none
        | some (endPos, results, s1) =>
          if results.length < mn then
            some (ParseResult.Failure endPos
              ("occurred only " ++ toString results.length ++ " times (minimum: "
                ++ toString mn ++ ")"), s1)
          else some (ParseResult.Success endPos (Val.list results), s1))
        = some (r, s') := hf
    cases hc : repeatLoop p tokens fuel pos [] s with
    | none =>
      rw [hc] at hf'
      exact Option.noConfusion hf'
    | some out =>
      obtain ⟨endPos, results, s1⟩ := out
      have hb := repeatLoop_pos p tokens hp fuel pos [] s endPos results s1 h0 hc
      rw [hc] at hf'
      have hf2 : (if results.length < mn then
          some (ParseResult.Failure endPos
            ("occurred only " ++ toString results.length ++ " times (minimum: "
              ++ toString mn ++ ")"), s1)
        else some (ParseResult.Success endPos (Val.list results), s1))
          = some (r, s') := hf'
      by_cases hmn : results.length < mn
      · rw [if_pos hmn] at hf2
        simp only [Option.some.injEq, Prod.mk.injEq] at hf2
        obtain ⟨hr, _⟩ := hf2
        subst hr
        exact ⟨fun hsu => by simp [ParseResult.isSuccess] at hsu, hb.2⟩
      · rw [if_neg hmn] at hf2
        simp only [Option.some.injEq, Prod.mk.injEq] at hf2
        obtain ⟨hr, _⟩ := hf2
        subst hr
        exact ⟨fun _ => hb.1, hb.2⟩
  | some mxv =>
    have hf' : (match repeatLoop p tokens fuel pos [] s with
        | Option.none => Option.none
        | some (endPos, results, s1) =>
          if results.length < mn then
            some (ParseResult.Failure endPos
              ("occurred only " ++ toString results.length ++ " times (minimum: "
                ++ toString mn ++ ")"), s1)
          else if mxv < results.length then
            some (ParseResult.Failure endPos
              ("occurred " ++ toString results.length ++ " times (maximum: "
                ++ toString mxv ++ ")"), s1)
          else some (ParseResult.Success endPos (Val.list results), s1))
        = some (r, s') := hf
    cases hc : repeatLoop p tokens fuel pos [] s with
    | none =>
      rw [hc] at hf'
      exact Option.noConfusion hf'
    | some out =>
      obtain ⟨endPos, results, s1⟩ := out
      have hb := repeatLoop_pos p tokens hp fuel pos [] s endPos results s1 h0 hc
      rw [hc] at hf'
      have hf2 : (if results.length < mn then
          some (ParseResult.Failure endPos
            ("occurred only " ++ toString results.length ++ " times (minimum: "
              ++ toString mn ++ ")"), s1)
        else if mxv < results.length then
          some (ParseResult.Failure endPos
            ("occurred " ++ toString results.length ++ " times (maximum: "
              ++ toString mxv ++ ")"), s1)
        else some (ParseResult.Success endPos (Val.list results), s1))
          = some (r, s') := hf'
      by_cases hmn : results.length < mn
      · rw [if_pos hmn] at hf2
        simp only [Option.some.injEq, Prod.mk.injEq] at hf2
        obtain ⟨hr, _⟩ := hf2
        subst hr
        exact ⟨fun hsu => by simp [ParseResult.isSuccess] at hsu, hb.2⟩
      · rw [if_neg hmn] at hf2
        by_cases hmx : mxv < results.length
        · rw [if_pos hmx] at hf2
          simp only [Option.some.injEq, Prod.mk.injEq] at hf2
          obtain ⟨hr, _⟩ := hf2
          subst hr
          exact ⟨fun hsu => by simp [ParseResult.isSuccess] at hsu, hb.2⟩
        · rw [if_neg hmx] at hf2
          simp only [Option.some.injEq, Prod.mk.injEq] at hf2
          obtain ⟨hr, _⟩ := hf2
          subst hr
          exact ⟨fun _ => hb.1, hb.2⟩

/-- C9 counterexample: the re-entrant self-call the decorated rule makes
during the C2 run — the leftrec rule invoked at key (toksOK, 0) while that
key holds the in-progress marker — hands the rule body the marker as its
outcome: a Failure whose end position is -1, which is negative. -/
theorem leftrec_marker_reaches_caller :
    (ruleOK 5 toksOK 0 (minsert [] (toksOK, 0) (markerRes, some false))).map Prod.fst
      = some (ParseResult.Failure (-1) "Prevent infinite recursion")
    ∧ (ParseResult.Failure (-1) "Prevent infinite recursion").position < 0 :=
  ⟨rfl, by decide⟩

/-- C9 (amended): every outcome the engine's primitives and combinators hand
back from a nonnegative starting position has end_position ≥ 0, and a
Success's end position never precedes the start — except for the transient
left-recursion marker, the Failure at position -1 that a leftrec-decorated
rule hands to a re-entrant self-call. -/
theorem outcome_positions_amended :
    markerRes = ParseResult.Failure (-1) "Prevent infinite recursion"
    ∧ markerRes.position < 0
    ∧ (∀ (σ : Type) (t : String) (a : Val → Val), PosInv (text t a : Parser σ))
    ∧ (∀ (σ : Type) (l : List String) (a : Val → Val), PosInv (one_of l a : Parser σ))
    ∧ (∀ (σ : Type) (pat : String) (f : String → Bool) (a : Val → Val),
        PosInv (regex pat f a : Parser σ))
    ∧ (∀ (σ : Type) (l : List (Parser σ)) (a : List Val → Val),
        (∀ p ∈ l, PosInv p) → PosInv (sequence l a))
    ∧ (∀ (σ : Type) (p1 p2 : Parser σ) (a : Val → Val),
        PosInv p1 → PosInv p2 → PosInv (p1.alt p2 a))
    ∧ (∀ (σ : Type) (p : Parser σ) (a : Val → Val), PosInv p → PosInv (optional p a))
    ∧ (∀ (σ : Type) (p : Parser σ) (mn : Nat) (mx : Option Nat) (a : Val → Val) (fuel : Nat),
        PosInv p → PosInv (repeatP p mn mx a fuel)) :=
  ⟨rfl, by decide,
    fun _ t a => posInv_text t a,
    fun _ l a => posInv_one_of l a,
    fun _ pat f a => posInv_regex pat f a,
    fun _ l a hl => posInv_sequence l a hl,
    fun _ p1 p2 a h1 h2 => posInv_alt p1 p2 a h1 h2,
    fun _ p a hp => posInv_optional p a hp,
    fun _ p mn mx a fuel hp => posInv_repeat p mn mx a fuel hp⟩

/-- C10: repeat's greedy while loop only exits when an iteration of the
repeated rule fails.  For a rule that succeeds without consuming input or
changing state — such as optional(q) at an in-bounds position where q fails
— the loop re-invokes the rule forever at the same position: no amount of
fuel makes the loop (or the repeat parser built on it, at any min/max
bounds) return, so repeat is not total over all argument rules. -/
theorem repeat_diverges_on_stationary_rule {σ : Type} (p : Parser σ)
    (tokens : List String) (pos : Int) (s : σ) (v : Val) (mn : Nat) (mx : Option Nat)
    (a : Val → Val) (fuel : Nat)
    (hstat : p.call tokens pos s = some (ParseResult.Success pos v, s))
    (hlt : pos < (tokens.length : Int)) :
    (∀ acc : List Val, repeatLoop p tokens fuel pos acc s = Option.none)
    ∧ (repeatP p mn mx a fuel).call tokens pos s = Option.none := by
  have hloop : ∀ (f : Nat) (acc : List Val), repeatLoop p tokens f pos acc s = Option.none := by
    intro f
    induction f with
    | zero => intro acc; rfl
    | succ f ih =>
      intro acc
      rw [repeatLoop, hstat]
      exact ih (acc ++ [v])
  refine ⟨hloop fuel, ?_⟩
  conv_lhs => rw [Parser.call]
  rw [if_neg (not_le.mpr hlt)]
  have hfn : (repeatP p mn mx a fuel).fn tokens pos s = Option.none := by
    have hF : (match repeatLoop p tokens fuel pos [] s with
        | Option.none => (Option.none : Option (ParseResult × σ))
        | some (endPos, results, s1) =>
          let n := results.length
          if n < mn then
            some (ParseResult.Failure endPos
              ("occurred only " ++ toString n ++ " times (minimum: " ++ toString mn ++ ")"), s1)
          else
            match mx with
            | some mxv =>
              if mxv < n then
                some (ParseResult.Failure endPos
                  ("occurred " ++ toString n ++ " times (maximum: " ++ toString mxv ++ ")"), s1)
              else some (ParseResult.Success endPos (Val.list results), s1)
            | Option.none => some (ParseResult.Success endPos (Val.list results), s1))
        = Option.none := by
      rw [hloop fuel []]
    exact hF
  rw [hfn]

/-- C10 witness: the divergence theorem discharged at the concrete rule
optional(text("X")), which succeeds without consuming at position 0 of the
stream ["a"] where "X" does not match, at fuel 9. -/
theorem repeat_diverges_witness :
    (∀ acc : List Val,
      repeatLoop (optional (text "X" identity) identity : Parser Unit) ["a"] 9 0 acc ()
        = Option.none)
    ∧ (repeatP (optional (text "X" identity) identity : Parser Unit)
        0 Option.none identity 9).call ["a"] 0 () = Option.none :=
  repeat_diverges_on_stationary_rule (optional (text "X" identity) identity)
    ["a"] 0 () Val.nil 0 Option.none identity 9 rfl (by decide)

end PyParsers
